import Mathlib

/-!
Verification of the text-chunking core of `scripts/chunk_text.py`
(`split_sentences` and `chunk_text`).

Modelling conventions:
* Python strings are modelled as `List Char`; the regex `\s` is modelled by
  the ASCII whitespace class (space, tab, newline, carriage return, vertical
  tab, form feed), which is what the inputs of interest contain.
* `min_words` / `max_words` are modelled as `Nat`; every claim under
  consideration assumes a valid configuration `1 ≤ min_words ≤ max_words`.
* The word-window splitter (`range(0, len(words), max_words)` in Python) is
  modelled by `windows`, which agrees with the Python loop for every step
  `max_words ≥ 1` (Python raises `ValueError` on step 0, which is unreachable
  under a valid configuration).
-/

namespace ChunkText

/-- Python's `\s` character class, restricted to ASCII whitespace. -/
def isSpace (c : Char) : Bool :=
  c = ' ' || c = '\t' || c = '\n' || c = '\r' || c = '\x0b' || c = '\x0c'

/-- Sentence-terminal punctuation `[.!?]` from the regex in `split_sentences`. -/
def isPunct (c : Char) : Bool :=
  c = '.' || c = '!' || c = '?'

/-- Python's `str.strip()`: drop leading and trailing whitespace. -/
def strip (cs : List Char) : List Char :=
  ((cs.dropWhile (fun c => isSpace c)).reverse.dropWhile (fun c => isSpace c)).reverse

/-- Python's `re.sub(r"\s+", " ", ·)`: collapse every run of whitespace into a
single space character. -/
def collapseWS : List Char → List Char
  | [] => []
  | [c] => if isSpace c then [' '] else [c]
  | c1 :: c2 :: rest =>
    if isSpace c1 then
      (if isSpace c2 then collapseWS (c2 :: rest) else ' ' :: collapseWS (c2 :: rest))
    else c1 :: collapseWS (c2 :: rest)

/-- Line 8 of `chunk_text.py`: `re.sub(r"\s+", " ", text.strip())`. -/
def normalize (cs : List Char) : List Char :=
  collapseWS (strip cs)

/-- Accumulator version of Python's `str.split()`; `cur` holds the reversed
characters of the word currently being read. -/
def wordsAux (cur : List Char) : List Char → List (List Char)
  | [] => if cur = [] then [] else [cur.reverse]
  | c :: rest =>
    if isSpace c then
      (if cur = [] then wordsAux [] rest else cur.reverse :: wordsAux [] rest)
    else wordsAux (c :: cur) rest

/-- Python's `str.split()` with no argument: whitespace-delimited words,
empty strings discarded. -/
def words (cs : List Char) : List (List Char) :=
  wordsAux [] cs

/-- Python's `" ".join(·)` on a list of strings. -/
def joinWords : List (List Char) → List Char
  | [] => []
  | [w] => w
  | w :: v :: rest => w ++ ' ' :: joinWords (v :: rest)

/-- Scanner of `re.split(r"(?<=[.!?])\s+", ·)`.  With `inRun = false` the
scanner is inside a piece: `prev` is the previously scanned character (the
lookbehind) and `acc` holds the reversed characters of the current piece; a
match begins exactly at a whitespace character whose predecessor is terminal
punctuation.  With `inRun = true` the scanner is consuming the (greedy)
whitespace run of a match; the next piece starts at the first
non-whitespace character. -/
def reSplitGo : Bool → Char → List Char → List Char → List (List Char)
  | true, _, _, [] => [[]]
  | false, _, acc, [] => [acc.reverse]
  | true, prev, acc, c :: rest =>
    if isSpace c then reSplitGo true prev acc rest
    else reSplitGo false c [c] rest
  | false, prev, acc, c :: rest =>
    if isPunct prev && isSpace c then acc.reverse :: reSplitGo true prev [] rest
    else reSplitGo false c (c :: acc) rest

/-- Python's `re.split(r"(?<=[.!?])\s+", cs)`.  The initial `prev` is a space,
which is not terminal punctuation, so no match can start at position 0 (the
lookbehind has no character to inspect there). -/
def reSplit (cs : List Char) : List (List Char) :=
  reSplitGo false ' ' [] cs

/-- Lines 7–11 of `chunk_text.py`: `split_sentences`. -/
def split_sentences (t : List Char) : List (List Char) :=
  let n := normalize t
  if n = [] then [] else reSplit n

/-- Worker for the fixed-size word windows: `n` is the remaining capacity of
the window being filled, `cur` its reversed contents. -/
def windowsGo (k : Nat) : Nat → List (List Char) → List (List Char) → List (List (List Char))
  | _, cur, [] => if cur = [] then [] else [cur.reverse]
  | 0, cur, w :: ws => cur.reverse :: windowsGo k (k - 1) [w] ws
  | n + 1, cur, w :: ws => windowsGo k n (w :: cur) ws

/-- Python's window loop `for i in range(0, len(words), k): words[i:i+k]`,
for step `k ≥ 1`. -/
def windows (k : Nat) (ws : List (List Char)) : List (List (List Char)) :=
  windowsGo k k [] ws

/-- Lines 32–35 of `chunk_text.py`: the chunks emitted for one oversized
sentence, given its word list — each window joined by spaces, stripped, and
kept only if non-empty. -/
def oversizedParts (k : Nat) (ws : List (List Char)) : List (List Char) :=
  ((windows k ws).map (fun win => strip (joinWords win))).filter (fun p => !p.isEmpty)

/-- Mutable state of the packing loop in `chunk_text`: emitted chunks, the
current accumulator `current`, and the running `word_count`. -/
structure PackState where
  chunks : List (List Char)
  current : List (List Char)
  wordCount : Nat
deriving Repr, DecidableEq

/-- Lines 20–25 of `chunk_text.py`: `flush()` — append the joined, stripped
accumulator when it is non-empty, then reset accumulator and count. -/
def flushState (st : PackState) : PackState :=
  { chunks := if st.current = [] then st.chunks
              else st.chunks ++ [strip (joinWords st.current)],
    current := [],
    wordCount := 0 }

/-- Lines 27–44 of `chunk_text.py`: the body of the `for sentence in sentences`
loop.  Note the two branches of the `min_words` test both call `flush()`, as in
the source. -/
def stepSentence (minW maxW : Nat) (st : PackState) (sentence : List Char) : PackState :=
  let ws := words sentence
  if maxW < ws.length then
    let st1 := if st.current = [] then st else flushState st
    { st1 with chunks := st1.chunks ++ oversizedParts maxW ws }
  else
    let st1 :=
      if maxW < st.wordCount + ws.length then
        (if minW ≤ st.wordCount then flushState st else flushState st)
      else st
    { st1 with current := st1.current ++ [sentence],
               wordCount := st1.wordCount + ws.length }

/-- Lines 14–49 of `chunk_text.py`: `chunk_text`. -/
def chunk_text (t : List Char) (minW maxW : Nat) : List (List Char) :=
  let final := (split_sentences t).foldl (stepSentence minW maxW) ⟨[], [], 0⟩
  (flushState final).chunks

/-- Modelled from the spec (§4.1): a word carries a sentence boundary when it
ends with terminal punctuation — in the normalized text, whitespace occurs
exactly as the single separators between words, so "terminal punctuation
followed by whitespace" means "last character of a non-final word". -/
def endsPunct (w : List Char) : Bool :=
  match w.getLast? with
  | some c => isPunct c
  | none => false

/-- Modelled from the spec (§4.1): group the word sequence of the normalized
text into sentences, starting a new sentence after every word that ends with
terminal punctuation; the final group is kept even without punctuation. -/
def groupSents : List (List Char) → List (List (List Char))
  | [] => []
  | w :: rest =>
    if endsPunct w then [w] :: groupSents rest
    else
      match groupSents rest with
      | [] => [[w]]
      | g :: gs => (w :: g) :: gs

/-- Modelled from the spec (§4.1): normalize, then split at every boundary
immediately after terminal punctuation followed by whitespace, punctuation
kept, separating whitespace discarded, final sentence kept even without
trailing punctuation; empty normalized text gives no sentences. -/
def splitSentencesSpec (t : List Char) : List (List Char) :=
  (groupSents (words t)).map joinWords

/-- Verification-side notion of a token produced by `words`: non-empty and
free of whitespace. -/
def IsWord (w : List Char) : Prop :=
  w ≠ [] ∧ ∀ c ∈ w, isSpace c = false

instance (w : List Char) : Decidable (IsWord w) := by
  unfold IsWord; infer_instance

/-- Word sequence held by a packing state: the words of the already emitted
chunks followed by the words of the pending accumulator. -/
def stateWords (st : PackState) : List (List Char) :=
  (st.chunks.map words).flatten ++ (st.current.map words).flatten

/-- Loop invariant of the packing loop of `chunk_text`: the running count
matches the accumulator, never exceeds `max_words`, every emitted chunk is a
non-empty canonical (single-space-joined, stripped) string of at most
`max_words` words, and every pending sentence is canonical with at least one
word. -/
def Inv (mx : Nat) (st : PackState) : Prop :=
  st.wordCount = ((st.current.map words).flatten).length ∧
  st.wordCount ≤ mx ∧
  (∀ c ∈ st.chunks, words c ≠ [] ∧ (words c).length ≤ mx ∧ c = joinWords (words c)) ∧
  (∀ s ∈ st.current, words s ≠ [] ∧ s = joinWords (words s))

/-! ### Lemmas about `words` -/

theorem wordsAux_append_space {c : Char} (hc : isSpace c = true) :
    ∀ (x cur y : List Char),
      wordsAux cur (x ++ c :: y) = wordsAux cur x ++ wordsAux [] y
  | [], cur, y => by
    by_cases h : cur = [] <;> simp [wordsAux, hc, h]
  | a :: x, cur, y => by
    by_cases ha : isSpace a
    · by_cases h : cur = [] <;>
        simp [wordsAux, ha, h, wordsAux_append_space hc x [] y]
    · simp [wordsAux, ha, wordsAux_append_space hc x (a :: cur) y]

theorem words_append_space {c : Char} (hc : isSpace c = true) (x y : List Char) :
    words (x ++ c :: y) = words x ++ words y :=
  wordsAux_append_space hc x [] y

theorem wordsAux_spaceless :
    ∀ (w cur : List Char), (∀ c ∈ w, isSpace c = false) →
      wordsAux cur w = if cur.reverse ++ w = [] then [] else [cur.reverse ++ w]
  | [], cur, _ => by
    by_cases h : cur = [] <;> simp [wordsAux, h]
  | a :: w, cur, hw => by
    have ha : isSpace a = false := hw a (List.mem_cons_self _ _)
    have ih := wordsAux_spaceless w (a :: cur) (fun c hc => hw c (List.mem_cons_of_mem _ hc))
    simp [wordsAux, ha, ih]

theorem words_eq_single {w : List Char} (hw : IsWord w) : words w = [w] := by
  have := wordsAux_spaceless w [] hw.2
  simpa [words, hw.1] using this

theorem wordsAux_mem :
    ∀ (cs cur w : List Char),
      (∀ c ∈ cur, isSpace c = false) → w ∈ wordsAux cur cs → IsWord w
  | [], cur, w, hcur, hw => by
    by_cases h : cur = []
    · simp [wordsAux, h] at hw
    · simp only [wordsAux, if_neg h, List.mem_singleton] at hw
      subst hw
      exact ⟨by simpa using h, fun c hc => hcur c (List.mem_reverse.mp hc)⟩
  | c :: rest, cur, w, hcur, hw => by
    by_cases hc : isSpace c
    · by_cases h : cur = []
      · rw [show wordsAux cur (c :: rest) = wordsAux [] rest by simp [wordsAux, hc, h]] at hw
        exact wordsAux_mem rest [] w (by simp) hw
      · rw [show wordsAux cur (c :: rest) = cur.reverse :: wordsAux [] rest by
            simp [wordsAux, hc, h]] at hw
        rcases List.mem_cons.mp hw with hw | hw
        · subst hw; exact ⟨by simpa using h, fun d hd => hcur d (List.mem_reverse.mp hd)⟩
        · exact wordsAux_mem rest [] w (by simp) hw
    · rw [show wordsAux cur (c :: rest) = wordsAux (c :: cur) rest by simp [wordsAux, hc]] at hw
      refine wordsAux_mem rest (c :: cur) w ?_ hw
      intro d hd
      rcases List.mem_cons.mp hd with h | h
      · subst h; simpa using hc
      · exact hcur d h

theorem words_isWord {cs w : List Char} (hw : w ∈ words cs) : IsWord w :=
  wordsAux_mem cs [] w (by simp) hw

theorem wordsAux_word_block :
    ∀ (w cur r : List Char), (∀ c ∈ w, isSpace c = false) →
      wordsAux cur (w ++ r) = wordsAux (w.reverse ++ cur) r
  | [], cur, r, _ => rfl
  | a :: w, cur, r, hw => by
    have ha : isSpace a = false := hw a (List.mem_cons_self _ _)
    have ih := wordsAux_word_block w (a :: cur) r (fun c hc => hw c (List.mem_cons_of_mem _ hc))
    simp [wordsAux, ha, ih, List.append_assoc]

theorem words_dropWhile_space :
    ∀ cs : List Char, words (cs.dropWhile (fun c => isSpace c)) = words cs
  | [] => rfl
  | c :: rest => by
    by_cases hc : isSpace c
    · rw [show (c :: rest).dropWhile (fun c => isSpace c) = rest.dropWhile (fun c => isSpace c) by
        simp [List.dropWhile_cons, hc]]
      rw [words_dropWhile_space rest]
      simp [words, wordsAux, hc]
    · simp [List.dropWhile_cons, hc]

theorem words_all_space : ∀ cs : List Char, (∀ c ∈ cs, isSpace c = true) → words cs = []
  | [], _ => rfl
  | c :: rest, h => by
    have hc := h c (List.mem_cons_self _ _)
    have := words_all_space rest (fun d hd => h d (List.mem_cons_of_mem _ hd))
    simpa [words, wordsAux, hc] using this

theorem words_append_all_space (x : List Char) :
    ∀ s : List Char, (∀ c ∈ s, isSpace c = true) → words (x ++ s) = words x
  | [], _ => by simp
  | c :: s', h => by
    rw [words_append_space (h c (List.mem_cons_self _ _)) x s']
    rw [words_all_space s' (fun d hd => h d (List.mem_cons_of_mem _ hd))]
    simp

theorem words_strip (cs : List Char) : words (strip cs) = words cs := by
  unfold strip
  have h1 : (cs.dropWhile (fun c => isSpace c)).reverse =
      ((cs.dropWhile (fun c => isSpace c)).reverse.takeWhile (fun c => isSpace c)) ++
        (cs.dropWhile (fun c => isSpace c)).reverse.dropWhile (fun c => isSpace c) :=
    (List.takeWhile_append_dropWhile _ _).symm
  have h2 : cs.dropWhile (fun c => isSpace c) =
      ((cs.dropWhile (fun c => isSpace c)).reverse.dropWhile (fun c => isSpace c)).reverse ++
        ((cs.dropWhile (fun c => isSpace c)).reverse.takeWhile (fun c => isSpace c)).reverse := by
    have h3 := congrArg List.reverse h1
    rw [List.reverse_reverse, List.reverse_append] at h3
    exact h3
  calc words ((cs.dropWhile (fun c => isSpace c)).reverse.dropWhile (fun c => isSpace c)).reverse
      = words (((cs.dropWhile (fun c => isSpace c)).reverse.dropWhile (fun c => isSpace c)).reverse ++
          ((cs.dropWhile (fun c => isSpace c)).reverse.takeWhile (fun c => isSpace c)).reverse) := by
        refine (words_append_all_space _ _ ?_).symm
        intro c hc
        exact List.mem_takeWhile_imp (List.mem_reverse.mp hc)
    _ = words (cs.dropWhile (fun c => isSpace c)) := by rw [← h2]
    _ = words cs := words_dropWhile_space cs

/-! ### Lemmas about `joinWords` -/

theorem joinWords_cons (v : List Char) (rest : List (List Char)) :
    joinWords (v :: rest) = v ++ (if rest = [] then [] else ' ' :: joinWords rest) := by
  cases rest <;> simp [joinWords]

theorem words_joinWords_map : ∀ ps : List (List Char), words (joinWords ps) = (ps.map words).flatten
  | [] => rfl
  | [p] => by simp [joinWords]
  | p :: q :: rest => by
    rw [show joinWords (p :: q :: rest) = p ++ ' ' :: joinWords (q :: rest) from rfl]
    rw [words_append_space (by decide) p _]
    rw [words_joinWords_map (q :: rest)]
    simp

theorem words_joinWords : ∀ ws : List (List Char), (∀ w ∈ ws, IsWord w) → words (joinWords ws) = ws
  | [], _ => rfl
  | w :: rest, h => by
    rw [words_joinWords_map]
    simp only [List.map_cons, List.flatten_cons]
    rw [words_eq_single (h w (List.mem_cons_self _ _))]
    have ih := words_joinWords rest (fun v hv => h v (List.mem_cons_of_mem _ hv))
    rw [words_joinWords_map] at ih
    simp [ih]

theorem joinWords_append : ∀ (a b : List (List Char)), a ≠ [] → b ≠ [] →
    joinWords (a ++ b) = joinWords a ++ ' ' :: joinWords b
  | [], _, ha, _ => absurd rfl ha
  | [w], b, _, hb => by
    cases b with
    | nil => exact absurd rfl hb
    | cons v rest => simp [joinWords]
  | w :: v :: rest, b, _, hb => by
    have ih := joinWords_append (v :: rest) b (by simp) hb
    simp only [List.cons_append]
    rw [show joinWords (w :: v :: (rest ++ b)) = w ++ ' ' :: joinWords (v :: (rest ++ b)) from rfl]
    rw [show (v :: (rest ++ b)) = (v :: rest) ++ b from rfl, ih]
    simp [joinWords]

theorem joinWords_flatten : ∀ gs : List (List (List Char)), (∀ g ∈ gs, g ≠ []) →
    joinWords (gs.map joinWords) = joinWords gs.flatten
  | [], _ => rfl
  | [g], _ => by simp [joinWords]
  | g :: g2 :: gs, h => by
    have hg : g ≠ [] := h g (by simp)
    have hg2 : g2 ≠ [] := h g2 (by simp)
    have hflat : (g2 :: gs).flatten ≠ [] := by
      simp only [List.flatten_cons]
      intro h'
      exact hg2 (List.append_eq_nil.mp h').1
    calc joinWords ((g :: g2 :: gs).map joinWords)
        = joinWords g ++ ' ' :: joinWords ((g2 :: gs).map joinWords) := rfl
      _ = joinWords g ++ ' ' :: joinWords ((g2 :: gs).flatten) := by
          rw [joinWords_flatten (g2 :: gs) (fun x hx => h x (List.mem_cons_of_mem _ hx))]
      _ = joinWords (g ++ (g2 :: gs).flatten) := (joinWords_append _ _ hg hflat).symm
      _ = joinWords ((g :: g2 :: gs).flatten) := by simp [List.flatten_cons]

theorem joinWords_ne_nil : ∀ ws : List (List Char), ws ≠ [] → (∀ w ∈ ws, w ≠ []) →
    joinWords ws ≠ []
  | [], h, _ => absurd rfl h
  | [w], _, h => by simpa [joinWords] using h w (by simp)
  | w :: v :: rest, _, h => by simp [joinWords]

/-! ### Small list helpers -/

theorem length_dropWhile_le (p : Char → Bool) : ∀ l : List Char, (l.dropWhile p).length ≤ l.length
  | [] => le_refl _
  | c :: rest => by
    by_cases hc : p c
    · rw [show (c :: rest).dropWhile p = rest.dropWhile p by simp [List.dropWhile_cons, hc]]
      exact le_trans (length_dropWhile_le p rest) (by simp)
    · simp [List.dropWhile_cons, hc]

theorem dropWhile_head_false (p : Char → Bool) :
    ∀ (l : List Char) {c : Char} {r : List Char}, l.dropWhile p = c :: r → p c = false
  | [], c, r, h => by simp at h
  | a :: rest, c, r, h => by
    by_cases ha : p a
    · rw [show (a :: rest).dropWhile p = rest.dropWhile p by simp [List.dropWhile_cons, ha]] at h
      exact dropWhile_head_false p rest h
    · rw [show (a :: rest).dropWhile p = a :: rest by simp [List.dropWhile_cons, ha]] at h
      cases h
      simpa using ha

theorem getLast?_append_right {l1 l2 : List Char} (h : l2 ≠ []) :
    (l1 ++ l2).getLast? = l2.getLast? := by
  rw [List.getLast?_append]
  cases h2 : l2.getLast? with
  | none => exact absurd (List.getLast?_eq_none_iff.mp h2) h
  | some c => rfl

theorem mem_of_getLast?_eq {l : List Char} {a : Char} (h : l.getLast? = some a) : a ∈ l :=
  List.mem_of_mem_getLast? (Option.mem_def.mpr h)

/-! ### Lemmas about `collapseWS`, `strip` and `normalize` -/

theorem collapseWS_word_block :
    ∀ (w cs : List Char), (∀ c ∈ w, isSpace c = false) →
      collapseWS (w ++ cs) = w ++ collapseWS cs
  | [], cs, _ => rfl
  | [a], cs, hw => by
    have ha : isSpace a = false := hw a (by simp)
    cases cs with
    | nil => simp [collapseWS, ha]
    | cons c rest => simp [collapseWS, ha]
  | a :: b :: w, cs, hw => by
    have ha : isSpace a = false := hw a (by simp)
    have ih := collapseWS_word_block (b :: w) cs (fun c hc => hw c (List.mem_cons_of_mem _ hc))
    simp only [List.cons_append]
    rw [show collapseWS (a :: b :: (w ++ cs)) = a :: collapseWS (b :: (w ++ cs)) by
      simp [collapseWS, ha]]
    rw [show (b :: (w ++ cs)) = (b :: w) ++ cs from rfl, ih]
    simp

theorem collapseWS_space_run {c : Char} (hc : isSpace c = true) :
    ∀ r : List Char, collapseWS (c :: r) = ' ' :: collapseWS (r.dropWhile (fun d => isSpace d))
  | [] => by simp [collapseWS, hc]
  | c2 :: rest => by
    by_cases h2 : isSpace c2
    · rw [show collapseWS (c :: c2 :: rest) = collapseWS (c2 :: rest) by simp [collapseWS, hc, h2]]
      rw [collapseWS_space_run h2 rest]
      simp [List.dropWhile_cons, h2]
    · rw [show collapseWS (c :: c2 :: rest) = ' ' :: collapseWS (c2 :: rest) by
        simp [collapseWS, hc, h2]]
      simp [List.dropWhile_cons, h2]

theorem wordsAux_ne_nil : ∀ (cs cur : List Char), cur ≠ [] → wordsAux cur cs ≠ []
  | [], cur, h => by simp [wordsAux, h]
  | c :: rest, cur, h => by
    by_cases hc : isSpace c
    · simp [wordsAux, hc, h]
    · simpa [wordsAux, hc] using wordsAux_ne_nil rest (c :: cur) (by simp)

theorem words_ne_nil_of_head {c : Char} {rest : List Char} (hc : isSpace c = false) :
    words (c :: rest) ≠ [] := by
  rw [show words (c :: rest) = wordsAux [c] rest by simp [words, wordsAux, hc]]
  exact wordsAux_ne_nil rest [c] (by simp)

theorem wordsAux_nil_eq (cur : List Char) :
    wordsAux cur [] = if cur.reverse = [] then [] else [cur.reverse] := by
  by_cases h : cur = [] <;> simp [wordsAux, h]

theorem collapseWS_canonicalAux :
    ∀ (n : Nat) (cs : List Char), cs.length ≤ n →
      (∀ c r, cs = c :: r → isSpace c = false) →
      (∀ c, cs.getLast? = some c → isSpace c = false) →
      collapseWS cs = joinWords (words cs)
  | _, [], _, _, _ => rfl
  | 0, a :: cs', hn, _, _ => by simp at hn
  | n + 1, a :: cs', hn, hhead, hlast => by
    have ha : isSpace a = false := hhead a cs' rfl
    have hdecomp : ((a :: cs').takeWhile (fun c => !isSpace c)) ++
        ((a :: cs').dropWhile (fun c => !isSpace c)) = a :: cs' :=
      List.takeWhile_append_dropWhile _ _
    have hw_spaceless : ∀ c ∈ (a :: cs').takeWhile (fun c => !isSpace c), isSpace c = false := by
      intro c hc
      have := List.mem_takeWhile_imp hc
      simpa using this
    have hw_ne : (a :: cs').takeWhile (fun c => !isSpace c) ≠ [] := by
      rw [show (a :: cs').takeWhile (fun c => !isSpace c)
            = a :: cs'.takeWhile (fun c => !isSpace c) by simp [List.takeWhile_cons, ha]]
      simp
    rw [show collapseWS (a :: cs')
        = collapseWS (((a :: cs').takeWhile (fun c => !isSpace c)) ++
            ((a :: cs').dropWhile (fun c => !isSpace c))) by rw [hdecomp]]
    rw [collapseWS_word_block _ _ hw_spaceless]
    rw [show words (a :: cs')
        = words (((a :: cs').takeWhile (fun c => !isSpace c)) ++
            ((a :: cs').dropWhile (fun c => !isSpace c))) by rw [hdecomp]]
    rw [show words (((a :: cs').takeWhile (fun c => !isSpace c)) ++
            ((a :: cs').dropWhile (fun c => !isSpace c)))
        = wordsAux (((a :: cs').takeWhile (fun c => !isSpace c)).reverse)
            ((a :: cs').dropWhile (fun c => !isSpace c)) by
      rw [words, wordsAux_word_block _ [] _ hw_spaceless, List.append_nil]]
    cases hr : (a :: cs').dropWhile (fun c => !isSpace c) with
    | nil =>
      rw [wordsAux_nil_eq]
      rw [if_neg (by simpa using hw_ne)]
      simp [joinWords, collapseWS]
    | cons c r' =>
      have hc_space : isSpace c = true := by
        have := dropWhile_head_false (fun c => !isSpace c) (a :: cs') hr
        simpa using this
      have hlen : ((a :: cs').takeWhile (fun c => !isSpace c)).length + (c :: r').length
          = (a :: cs').length := by
        rw [← hr]
        have h6 := congrArg List.length hdecomp
        rw [List.length_append] at h6
        exact h6
      have hr'_le : r'.length + 1 ≤ n + 1 := by
        have h1 : 1 ≤ ((a :: cs').takeWhile (fun c => !isSpace c)).length :=
          List.length_pos.mpr hw_ne
        have h2 : (a :: cs').length ≤ n + 1 := hn
        simp only [List.length_cons] at hlen h2
        omega
      cases hr'' : r'.dropWhile (fun d => isSpace d) with
      | nil =>
        exfalso
        have hall : ∀ x ∈ r', isSpace x = true := by
          have := List.dropWhile_eq_nil_iff.mp hr''
          intro x hx
          simpa using this x hx
        have hlast_mem : ∀ d, (c :: r').getLast? = some d → isSpace d = true := by
          intro d hd
          have hdm : d ∈ c :: r' := mem_of_getLast?_eq hd
          rcases List.mem_cons.mp hdm with h | h
          · rw [h]; exact hc_space
          · exact hall d h
        have hlast_eq : (a :: cs').getLast? = (c :: r').getLast? := by
          conv_lhs => rw [← hdecomp, hr]
          exact getLast?_append_right (by simp)
        cases hgl : (c :: r').getLast? with
        | none => simp at hgl
        | some d =>
          have h1 : isSpace d = false := hlast d (by rw [hlast_eq, hgl])
          have h2 : isSpace d = true := hlast_mem d hgl
          rw [h1] at h2
          exact Bool.false_ne_true h2
      | cons d r3 =>
        have hd_space : isSpace d = false := dropWhile_head_false (fun d => isSpace d) r' hr''
        have hr'decomp : r'.takeWhile (fun d => isSpace d) ++ (d :: r3) = r' := by
          rw [← hr'']
          exact List.takeWhile_append_dropWhile _ _
        have hlast3 : ∀ e, (d :: r3).getLast? = some e → isSpace e = false := by
          intro e he
          apply hlast
          have h4 : c :: r' = (c :: r'.takeWhile (fun x => isSpace x)) ++ (d :: r3) := by
            rw [List.cons_append, hr'decomp]
          have h5 : (a :: cs') = ((a :: cs').takeWhile (fun c => !isSpace c)) ++ (c :: r') := by
            rw [← hr, hdecomp]
          rw [h5, getLast?_append_right (by simp), h4, getLast?_append_right (by simp), he]

        have hlen3 : (d :: r3).length ≤ n := by
          have := length_dropWhile_le (fun d => isSpace d) r'
          rw [hr''] at this
          omega
        have ih := collapseWS_canonicalAux n (d :: r3) hlen3
          (by intro e r he; cases he; exact hd_space) hlast3
        rw [collapseWS_space_run hc_space, hr'']
        rw [ih]
        rw [show wordsAux (((a :: cs').takeWhile (fun c => !isSpace c)).reverse) (c :: r')
            = ((a :: cs').takeWhile (fun c => !isSpace c)) :: words r' by
          simp [wordsAux, hc_space, hw_ne, words]]
        rw [show words r' = words (d :: r3) by rw [← words_dropWhile_space r', hr'']]
        rw [joinWords_cons]
        rw [if_neg (words_ne_nil_of_head hd_space)]

theorem strip_sound (cs : List Char) :
    (∀ c r, strip cs = c :: r → isSpace c = false) ∧
    (∀ c, (strip cs).getLast? = some c → isSpace c = false) := by
  have h1 : (cs.dropWhile (fun c => isSpace c)).reverse =
      ((cs.dropWhile (fun c => isSpace c)).reverse.takeWhile (fun c => isSpace c)) ++
        (cs.dropWhile (fun c => isSpace c)).reverse.dropWhile (fun c => isSpace c) :=
    (List.takeWhile_append_dropWhile _ _).symm
  have h2 : cs.dropWhile (fun c => isSpace c) =
      ((cs.dropWhile (fun c => isSpace c)).reverse.dropWhile (fun c => isSpace c)).reverse ++
        ((cs.dropWhile (fun c => isSpace c)).reverse.takeWhile (fun c => isSpace c)).reverse := by
    have h3 := congrArg List.reverse h1
    rw [List.reverse_reverse, List.reverse_append] at h3
    exact h3
  constructor
  · intro c r h
    have hv : ((cs.dropWhile (fun c => isSpace c)).reverse.dropWhile (fun c => isSpace c)).reverse
        = c :: r := h
    exact dropWhile_head_false (fun c => isSpace c) cs
      (h2.trans (by rw [hv, List.cons_append]))
  · intro c h
    rw [show strip cs =
        ((cs.dropWhile (fun c => isSpace c)).reverse.dropWhile (fun c => isSpace c)).reverse
        from rfl] at h
    have h4 : ((cs.dropWhile (fun c => isSpace c)).reverse.dropWhile (fun c => isSpace c)).head?
        = some c := by
      have h5 := List.head?_reverse
        (((cs.dropWhile (fun c => isSpace c)).reverse.dropWhile (fun c => isSpace c)).reverse)
      rw [List.reverse_reverse] at h5
      rw [h5, h]
    cases h6 : (cs.dropWhile (fun c => isSpace c)).reverse.dropWhile (fun c => isSpace c) with
    | nil => rw [h6] at h4; simp at h4
    | cons b t =>
      rw [h6] at h4
      simp only [List.head?_cons, Option.some.injEq] at h4
      rw [← h4]
      exact dropWhile_head_false (fun c => isSpace c) _ h6

theorem normalize_eq (cs : List Char) : normalize cs = joinWords (words cs) := by
  unfold normalize
  rw [collapseWS_canonicalAux (strip cs).length (strip cs) (le_refl _)
    (strip_sound cs).1 (strip_sound cs).2]
  rw [words_strip]

theorem words_normalize (cs : List Char) : words (normalize cs) = words cs := by
  rw [normalize_eq, words_joinWords _ (fun w hw => words_isWord hw)]

theorem strip_eq_self : ∀ (cs : List Char),
    (∀ c r, cs = c :: r → isSpace c = false) →
    (∀ c, cs.getLast? = some c → isSpace c = false) →
    strip cs = cs
  | [], _, _ => rfl
  | a :: rest, hhead, hlast => by
    have ha : isSpace a = false := hhead a rest rfl
    unfold strip
    rw [show (a :: rest).dropWhile (fun c => isSpace c) = a :: rest by
      simp [List.dropWhile_cons, ha]]
    cases hrev : (a :: rest).reverse with
    | nil => simp at hrev
    | cons b t =>
      have hb : isSpace b = false := by
        apply hlast
        rw [← List.head?_reverse, hrev]
        rfl
      rw [show (b :: t).dropWhile (fun c => isSpace c) = b :: t by
        simp [List.dropWhile_cons, hb]]
      have h7 := congrArg List.reverse hrev
      rw [List.reverse_reverse] at h7
      exact h7.symm

theorem joinWords_head_false {ws : List (List Char)} (h : ∀ w ∈ ws, IsWord w) :
    ∀ c r, joinWords ws = c :: r → isSpace c = false := by
  intro c r hj
  cases ws with
  | nil => simp [joinWords] at hj
  | cons w rest =>
    cases hw : w with
    | nil => exact absurd hw (h w (by simp)).1
    | cons a w'' =>
      rw [joinWords_cons, hw, List.cons_append] at hj
      have : a = c := (List.cons.injEq _ _ _ _ ▸ hj).1
      rw [← this]
      exact (h w (by simp)).2 a (by rw [hw]; simp)

theorem joinWords_getLast_false : ∀ (ws : List (List Char)), (∀ w ∈ ws, IsWord w) →
    ∀ c, (joinWords ws).getLast? = some c → isSpace c = false
  | [], _, c, h => by simp [joinWords] at h
  | [w], hw, c, h =>
    (hw w (by simp)).2 c (mem_of_getLast?_eq (by simpa [joinWords] using h))
  | w :: v :: rest, hw, c, h => by
    have hne : joinWords (v :: rest) ≠ [] :=
      joinWords_ne_nil (v :: rest) (by simp) (fun x hx => (hw x (List.mem_cons_of_mem _ hx)).1)
    rw [show joinWords (w :: v :: rest) = w ++ ' ' :: joinWords (v :: rest) from rfl] at h
    rw [getLast?_append_right (by simp)] at h
    rw [show (' ' :: joinWords (v :: rest)) = [' '] ++ joinWords (v :: rest) from rfl] at h
    rw [getLast?_append_right hne] at h
    exact joinWords_getLast_false (v :: rest) (fun x hx => hw x (List.mem_cons_of_mem _ hx)) c h

theorem strip_joinWords {ws : List (List Char)} (h : ∀ w ∈ ws, IsWord w) :
    strip (joinWords ws) = joinWords ws :=
  strip_eq_self (joinWords ws) (joinWords_head_false h) (joinWords_getLast_false ws h)

/-! ### Lemmas about `groupSents` -/

theorem groupSents_ne_nil : ∀ ws : List (List Char), ws ≠ [] → groupSents ws ≠ []
  | [], h => absurd rfl h
  | w :: rest, _ => by
    by_cases hw : endsPunct w
    · simp [groupSents, hw]
    · cases hgr : groupSents rest with
      | nil => simp [groupSents, hw, hgr]
      | cons g gs => simp [groupSents, hw, hgr]

theorem groupSents_groups_ne_nil : ∀ (ws : List (List Char)) (g : List (List Char)),
    g ∈ groupSents ws → g ≠ []
  | [], g, h => by simp [groupSents] at h
  | w :: rest, g, h => by
    by_cases hw : endsPunct w
    · rw [show groupSents (w :: rest) = [w] :: groupSents rest by simp [groupSents, hw]] at h
      rcases List.mem_cons.mp h with h | h
      · subst h; simp
      · exact groupSents_groups_ne_nil rest g h
    · cases hgr : groupSents rest with
      | nil =>
        rw [show groupSents (w :: rest) = [[w]] by simp [groupSents, hw, hgr]] at h
        rcases List.mem_cons.mp h with h | h
        · subst h; simp
        · simp at h
      | cons g' gs' =>
        rw [show groupSents (w :: rest) = (w :: g') :: gs' by simp [groupSents, hw, hgr]] at h
        rcases List.mem_cons.mp h with h | h
        · subst h; simp
        · exact groupSents_groups_ne_nil rest g (by rw [hgr]; exact List.mem_cons_of_mem _ h)

theorem groupSents_flatten : ∀ ws : List (List Char), (groupSents ws).flatten = ws
  | [] => rfl
  | w :: rest => by
    by_cases hw : endsPunct w
    · rw [show groupSents (w :: rest) = [w] :: groupSents rest by simp [groupSents, hw]]
      simp [groupSents_flatten rest]
    · cases hgr : groupSents rest with
      | nil =>
        rw [show groupSents (w :: rest) = [[w]] by simp [groupSents, hw, hgr]]
        have hrest := groupSents_flatten rest
        rw [hgr] at hrest
        simp only [List.flatten_nil] at hrest
        simp [← hrest]
      | cons g gs =>
        rw [show groupSents (w :: rest) = (w :: g) :: gs by simp [groupSents, hw, hgr]]
        have hrest := groupSents_flatten rest
        rw [hgr] at hrest
        simp only [List.flatten_cons] at hrest ⊢
        rw [List.cons_append, hrest]

/-! ### Lemmas about `reSplitGo` -/

theorem reSplitGo_word :
    ∀ (w : List Char) (prev : Char) (acc cs : List Char), (∀ c ∈ w, isSpace c = false) →
      reSplitGo false prev acc (w ++ cs) = reSplitGo false (w.getLastD prev) (w.reverse ++ acc) cs
  | [], _, _, _, _ => rfl
  | a :: w, prev, acc, cs, hw => by
    have ha : isSpace a = false := hw a (by simp)
    have ih := reSplitGo_word w a (a :: acc) cs (fun c hc => hw c (List.mem_cons_of_mem _ hc))
    rw [List.cons_append]
    rw [show reSplitGo false prev acc (a :: (w ++ cs)) = reSplitGo false a (a :: acc) (w ++ cs) by
      simp [reSplitGo, ha]]
    rw [ih, List.getLastD_cons]
    simp [List.append_assoc]

theorem reSplitGo_true_nonspace {b : Char} (hb : isSpace b = false)
    (prev : Char) (acc rest : List Char) :
    reSplitGo true prev acc (b :: rest) = reSplitGo false b [b] rest := by
  simp [reSplitGo, hb]

theorem reSplitGo_false_nil_acc {b : Char} (hb : isSpace b = false)
    (prev : Char) (rest : List Char) :
    reSplitGo false prev [] (b :: rest) = reSplitGo false b [b] rest := by
  simp [reSplitGo, hb]

theorem endsPunct_getLastD {w : List Char} (hw : w ≠ []) (d : Char) :
    endsPunct w = isPunct (w.getLastD d) := by
  cases hgl : w.getLast? with
  | none => exact absurd (List.getLast?_eq_none_iff.mp hgl) hw
  | some c =>
    rw [List.getLastD_eq_getLast?, hgl]
    simp [endsPunct, hgl]

theorem reSplitGo_joinWords :
    ∀ (ws : List (List Char)) (prev : Char) (acc : List Char) (g : List (List Char))
      (gs : List (List (List Char))),
      (∀ w ∈ ws, IsWord w) → groupSents ws = g :: gs →
      reSplitGo false prev acc (joinWords ws) = (acc.reverse ++ joinWords g) :: gs.map joinWords
  | [], _, _, g, gs, _, hgr => by simp [groupSents] at hgr
  | [w], prev, acc, g, gs, hw, hgr => by
    have hgr' : groupSents [w] = [[w]] := by
      by_cases hp : endsPunct w <;> simp [groupSents, hp]
    rw [hgr'] at hgr
    injection hgr with h1 h2
    subst h1; subst h2
    have hiw := hw w (by simp)
    have h8 := reSplitGo_word w prev acc [] hiw.2
    rw [List.append_nil] at h8
    rw [show joinWords [w] = w from rfl, h8]
    rw [show reSplitGo false (w.getLastD prev) (w.reverse ++ acc) []
        = [(w.reverse ++ acc).reverse] from rfl]
    simp [joinWords]
  | w :: v :: rest, prev, acc, g, gs, hw, hgr => by
    have hiw := hw w (by simp)
    have hvw := hw v (by simp)
    rw [show joinWords (w :: v :: rest) = w ++ ' ' :: joinWords (v :: rest) from rfl]
    rw [reSplitGo_word w prev acc (' ' :: joinWords (v :: rest)) hiw.2]
    obtain ⟨g', gs', hgr'⟩ : ∃ g' gs', groupSents (v :: rest) = g' :: gs' := by
      cases hx : groupSents (v :: rest) with
      | nil => exact absurd hx (groupSents_ne_nil _ (by simp))
      | cons a b => exact ⟨a, b, rfl⟩
    have hg'ne : g' ≠ [] := groupSents_groups_ne_nil (v :: rest) g' (by rw [hgr']; simp)
    obtain ⟨b, v'', hv⟩ : ∃ b v'', v = b :: v'' := by
      cases v with
      | nil => exact absurd rfl hvw.1
      | cons b v'' => exact ⟨b, v'', rfl⟩
    have hbs : isSpace b = false := hvw.2 b (by rw [hv]; simp)
    have hJ : joinWords (v :: rest)
        = b :: (v'' ++ if rest = [] then [] else ' ' :: joinWords rest) := by
      rw [joinWords_cons, hv, List.cons_append]
    have hend := endsPunct_getLastD hiw.1 prev
    have hrest_iw : ∀ x ∈ v :: rest, IsWord x := fun x hx => hw x (List.mem_cons_of_mem _ hx)
    by_cases hp : endsPunct w
    · have hpl : isPunct (w.getLastD prev) = true := by rw [← hend]; exact hp
      simp only [reSplitGo]
      rw [if_pos (show (isPunct (w.getLastD prev) && isSpace ' ') = true by rw [hpl]; decide)]
      rw [hJ, reSplitGo_true_nonspace hbs]
      rw [← reSplitGo_false_nil_acc hbs ' ' _]
      rw [← hJ]
      rw [reSplitGo_joinWords (v :: rest) ' ' [] g' gs' hrest_iw hgr']
      rw [show groupSents (w :: v :: rest) = [w] :: groupSents (v :: rest) by
        simp [groupSents, hp], hgr'] at hgr
      injection hgr with h1 h2
      subst h1; subst h2
      simp [joinWords]
    · have hpl : isPunct (w.getLastD prev) = false := by
        rw [← hend]; simpa using hp
      simp only [reSplitGo]
      rw [if_neg (show ¬((isPunct (w.getLastD prev) && isSpace ' ') = true) by rw [hpl]; decide)]
      rw [reSplitGo_joinWords (v :: rest) ' ' (' ' :: (w.reverse ++ acc)) g' gs' hrest_iw hgr']
      have hgw : groupSents (w :: v :: rest) = (w :: g') :: gs' := by
        set ys := v :: rest with hys
        clear_value ys
        simp [groupSents, hp, hgr']
      rw [hgw] at hgr
      injection hgr with h1 h2
      subst h1; subst h2
      rw [joinWords_cons w g', if_neg hg'ne]
      simp [List.append_assoc]

theorem split_sentences_eq_spec (t : List Char) : split_sentences t = splitSentencesSpec t := by
  unfold split_sentences splitSentencesSpec
  show (if normalize t = [] then ([] : List (List Char)) else reSplit (normalize t))
      = (groupSents (words t)).map joinWords
  cases hws : words t with
  | nil =>
    have hn : normalize t = [] := by rw [normalize_eq, hws]; rfl
    rw [hn]
    simp [groupSents]
  | cons w ws' =>
    have hnz : normalize t = joinWords (w :: ws') := by rw [normalize_eq, hws]
    have hiw : ∀ x ∈ w :: ws', IsWord x := by
      rw [← hws]; exact fun x hx => words_isWord hx
    have hne : normalize t ≠ [] := by
      rw [hnz]
      exact joinWords_ne_nil _ (by simp) (fun x hx => (hiw x hx).1)
    rw [if_neg hne]
    obtain ⟨g, gs, hgr⟩ : ∃ g gs, groupSents (w :: ws') = g :: gs := by
      cases hx : groupSents (w :: ws') with
      | nil => exact absurd hx (groupSents_ne_nil _ (by simp))
      | cons a b => exact ⟨a, b, rfl⟩
    unfold reSplit
    rw [hnz, reSplitGo_joinWords (w :: ws') ' ' [] g gs hiw hgr]
    rw [hgr]
    simp

/-! ### Lemmas about `windows` and `oversizedParts` -/

theorem windows_nil (k : Nat) : windows k [] = [] := by
  simp [windows, windowsGo]

theorem windowsGo_spec (k : Nat) (hk : 1 ≤ k) :
    ∀ (ws : List (List Char)) (n : Nat) (cur : List (List Char)),
      (cur ≠ [] ∨ ws ≠ []) →
      windowsGo k n cur ws = (cur.reverse ++ ws.take n) :: windows k (ws.drop n)
  | [], n, cur, h => by
    have hcur : cur ≠ [] := by
      rcases h with h | h
      · exact h
      · exact absurd rfl h
    simp [windowsGo, windows_nil, hcur]
  | w :: ws, 0, cur, _ => by
    obtain ⟨m, rfl⟩ : ∃ m, k = m + 1 := ⟨k - 1, by omega⟩
    simp [windowsGo, windows]
  | w :: ws, n + 1, cur, _ => by
    have ih := windowsGo_spec k hk ws n (w :: cur) (Or.inl (by simp))
    rw [show windowsGo k (n + 1) cur (w :: ws) = windowsGo k n (w :: cur) ws from rfl]
    rw [ih]
    simp [List.append_assoc]

theorem windows_cons (k : Nat) (hk : 1 ≤ k) (w : List Char) (ws : List (List Char)) :
    windows k (w :: ws) = (w :: ws.take (k - 1)) :: windows k (ws.drop (k - 1)) := by
  obtain ⟨m, rfl⟩ : ∃ m, k = m + 1 := ⟨k - 1, by omega⟩
  show windowsGo (m + 1) (m + 1) [] (w :: ws) = _
  rw [show windowsGo (m + 1) (m + 1) [] (w :: ws) = windowsGo (m + 1) m [w] ws from rfl]
  rw [windowsGo_spec (m + 1) hk ws m [w] (Or.inl (by simp))]
  simp

theorem windows_flatten_fuel (k : Nat) (hk : 1 ≤ k) :
    ∀ (n : Nat) (ws : List (List Char)), ws.length ≤ n → (windows k ws).flatten = ws
  | _, [], _ => by simp [windows_nil]
  | 0, w :: ws, h => by simp at h
  | n + 1, w :: ws, h => by
    rw [windows_cons k hk]
    have hlen : (ws.drop (k - 1)).length ≤ n := by
      have h1 := List.length_drop (k - 1) ws
      simp only [List.length_cons] at h
      omega
    rw [List.flatten_cons, windows_flatten_fuel k hk n (ws.drop (k - 1)) hlen]
    rw [List.cons_append, List.take_append_drop]

theorem windows_flatten (k : Nat) (hk : 1 ≤ k) (ws : List (List Char)) :
    (windows k ws).flatten = ws :=
  windows_flatten_fuel k hk ws.length ws (le_refl _)

theorem windows_mem_size (k : Nat) (hk : 1 ≤ k) :
    ∀ (n : Nat) (ws win : List (List Char)), ws.length ≤ n → win ∈ windows k ws →
      win ≠ [] ∧ win.length ≤ k
  | _, [], win, _, h => by simp [windows_nil] at h
  | 0, w :: ws, win, h, _ => by simp at h
  | n + 1, w :: ws, win, h, hm => by
    rw [windows_cons k hk] at hm
    rcases List.mem_cons.mp hm with hm | hm
    · subst hm
      constructor
      · simp
      · have h2 := List.length_take (k - 1) ws
        simp only [List.length_cons]
        omega
    · have hlen : (ws.drop (k - 1)).length ≤ n := by
        have h1 := List.length_drop (k - 1) ws
        simp only [List.length_cons] at h
        omega
      exact windows_mem_size k hk n (ws.drop (k - 1)) win hlen hm

theorem windows_ne_nil (k : Nat) (hk : 1 ≤ k) {ws : List (List Char)} (h : ws ≠ []) :
    windows k ws ≠ [] := by
  cases ws with
  | nil => exact absurd rfl h
  | cons w ws' => rw [windows_cons k hk]; simp

theorem windows_length_fuel (k : Nat) (hk : 1 ≤ k) :
    ∀ (n : Nat) (ws : List (List Char)), ws.length ≤ n → ws ≠ [] →
      (windows k ws).length = (ws.length + k - 1) / k
  | _, [], _, h => absurd rfl h
  | 0, w :: ws, h, _ => by simp at h
  | n + 1, w :: ws, h, _ => by
    rw [windows_cons k hk, List.length_cons]
    by_cases hle : ws.length ≤ k - 1
    · have hdrop : ws.drop (k - 1) = [] := List.drop_eq_nil_iff.mpr hle
      rw [hdrop, windows_nil]
      simp only [List.length_nil, List.length_cons]
      have hdiv := Nat.div_eq_of_lt_le (show 1 * k ≤ ws.length + 1 + k - 1 by omega)
        (show ws.length + 1 + k - 1 < (1 + 1) * k by omega)
      omega
    · have hne : ws.drop (k - 1) ≠ [] := by
        rw [Ne, List.drop_eq_nil_iff]
        omega
      have hlen : (ws.drop (k - 1)).length ≤ n := by
        have h1 := List.length_drop (k - 1) ws
        simp only [List.length_cons] at h
        omega
      rw [windows_length_fuel k hk n (ws.drop (k - 1)) hlen hne]
      rw [List.length_drop, List.length_cons]
      have harith : ws.length + 1 + k - 1 = (ws.length - (k - 1) + k - 1) + k := by omega
      rw [harith, Nat.add_div_right _ (by omega : 0 < k)]

theorem windows_length (k : Nat) (hk : 1 ≤ k) {ws : List (List Char)} (h : ws ≠ []) :
    (windows k ws).length = (ws.length + k - 1) / k :=
  windows_length_fuel k hk ws.length ws (le_refl _) h

theorem windows_sizes_fuel (k : Nat) (hk : 1 ≤ k) :
    ∀ (n : Nat) (ws : List (List Char)), ws.length ≤ n → ws ≠ [] →
      (windows k ws).map List.length
        = List.replicate ((windows k ws).length - 1) k
            ++ [if ws.length % k = 0 then k else ws.length % k]
  | _, [], _, h => absurd rfl h
  | 0, w :: ws, h, _ => by simp at h
  | n + 1, w :: ws, h, _ => by
    by_cases hle : ws.length ≤ k - 1
    · have hdrop : ws.drop (k - 1) = [] := List.drop_eq_nil_iff.mpr hle
      have htake : ws.take (k - 1) = ws := List.take_of_length_le hle
      rw [windows_cons k hk, hdrop, windows_nil, htake]
      simp only [List.map_cons, List.map_nil, List.length_cons, List.length_nil,
        List.length_singleton]
      by_cases hLk : ws.length + 1 = k
      · rw [if_pos (show (ws.length + 1) % k = 0 by rw [hLk]; exact Nat.mod_self k)]
        simp [List.replicate]
        omega
      · rw [if_neg (show ¬ (ws.length + 1) % k = 0 by
          rw [Nat.mod_eq_of_lt (by omega)]; omega)]
        rw [Nat.mod_eq_of_lt (by omega)]
        simp [List.replicate]
    · have hne : ws.drop (k - 1) ≠ [] := by
        rw [Ne, List.drop_eq_nil_iff]; omega
      have hlen : (ws.drop (k - 1)).length ≤ n := by
        have h1 := List.length_drop (k - 1) ws
        simp only [List.length_cons] at h
        omega
      have htake : (ws.take (k - 1)).length = k - 1 := by
        rw [List.length_take]
        omega
      have hwne := windows_ne_nil k hk hne
      have ih := windows_sizes_fuel k hk n (ws.drop (k - 1)) hlen hne
      rw [windows_cons k hk]
      simp only [List.map_cons, List.length_cons, htake]
      rw [ih]
      have hmod : (ws.length + 1) % k = (ws.drop (k - 1)).length % k := by
        rw [List.length_drop]
        rw [Nat.mod_eq_sub_mod (show k ≤ ws.length + 1 by omega)]
        congr 1
        omega
      rw [hmod]
      have hpos : 1 ≤ (windows k (ws.drop (k - 1))).length := List.length_pos.mpr hwne
      rw [show (windows k (ws.drop (k - 1))).length + 1 - 1
          = ((windows k (ws.drop (k - 1))).length - 1) + 1 by omega]
      rw [List.replicate_succ]
      rw [show k - 1 + 1 = k by omega]
      simp

theorem windows_sizes (k : Nat) (hk : 1 ≤ k) {ws : List (List Char)} (h : ws ≠ []) :
    (windows k ws).map List.length
      = List.replicate ((windows k ws).length - 1) k
          ++ [if ws.length % k = 0 then k else ws.length % k] :=
  windows_sizes_fuel k hk ws.length ws (le_refl _) h

theorem windows_mem_words (k : Nat) (hk : 1 ≤ k) {ws win : List (List Char)}
    (hm : win ∈ windows k ws) : ∀ x ∈ win, x ∈ ws := by
  intro x hx
  rw [← windows_flatten k hk ws]
  exact List.mem_flatten.mpr ⟨win, hm, hx⟩

theorem oversizedParts_eq {k : Nat} (hk : 1 ≤ k) {ws : List (List Char)}
    (hws : ∀ w ∈ ws, IsWord w) :
    oversizedParts k ws = (windows k ws).map joinWords := by
  have hwin : ∀ win ∈ windows k ws, (∀ x ∈ win, IsWord x) ∧ win ≠ [] := by
    intro win hm
    exact ⟨fun x hx => hws x (windows_mem_words k hk hm x hx),
      (windows_mem_size k hk ws.length ws win (le_refl _) hm).1⟩
  unfold oversizedParts
  rw [List.map_congr_left (fun win hm => strip_joinWords (hwin win hm).1)]
  apply List.filter_eq_self.mpr
  intro p hp
  obtain ⟨win, hm, rfl⟩ := List.mem_map.mp hp
  have hne : joinWords win ≠ [] :=
    joinWords_ne_nil win (hwin win hm).2 (fun x hx => ((hwin win hm).1 x hx).1)
  simpa using hne

theorem oversizedParts_words {k : Nat} (hk : 1 ≤ k) {ws : List (List Char)}
    (hws : ∀ w ∈ ws, IsWord w) :
    (oversizedParts k ws).map words = windows k ws := by
  have hwin : ∀ win ∈ windows k ws, ∀ x ∈ win, IsWord x := by
    intro win hm x hx
    exact hws x (windows_mem_words k hk hm x hx)
  rw [oversizedParts_eq hk hws, List.map_map]
  conv_rhs => rw [← List.map_id (windows k ws)]
  apply List.map_congr_left
  intro win hm
  simp only [Function.comp_apply, id_eq]
  exact words_joinWords win (hwin win hm)

/-! ### Sentences produced by `split_sentences` -/

theorem split_sentences_sentence_words (t : List Char) :
    ∀ s ∈ split_sentences t, words s ≠ [] ∧ s = joinWords (words s) := by
  intro s hs
  rw [split_sentences_eq_spec] at hs
  unfold splitSentencesSpec at hs
  obtain ⟨g, hg, rfl⟩ := List.mem_map.mp hs
  have hsub : ∀ x ∈ g, IsWord x := by
    intro x hx
    have hxf : x ∈ (groupSents (words t)).flatten := List.mem_flatten.mpr ⟨g, hg, hx⟩
    rw [groupSents_flatten] at hxf
    exact words_isWord hxf
  have hwj : words (joinWords g) = g := words_joinWords g hsub
  rw [hwj]
  exact ⟨groupSents_groups_ne_nil _ g hg, rfl⟩

theorem split_sentences_words_flatten (t : List Char) :
    ((split_sentences t).map words).flatten = words t := by
  rw [split_sentences_eq_spec]
  unfold splitSentencesSpec
  rw [List.map_map]
  have hcg : ∀ g ∈ groupSents (words t), (words ∘ joinWords) g = id g := by
    intro g hg
    simp only [Function.comp_apply, id_eq]
    apply words_joinWords
    intro x hx
    have hx2 : x ∈ (groupSents (words t)).flatten := List.mem_flatten.mpr ⟨g, hg, hx⟩
    rw [groupSents_flatten] at hx2
    exact words_isWord hx2
  rw [List.map_congr_left hcg, List.map_id, groupSents_flatten]

/-! ### Packing-loop lemmas -/

theorem flush_chunks_words (st : PackState) :
    ((flushState st).chunks.map words).flatten
      = (st.chunks.map words).flatten ++ (st.current.map words).flatten := by
  unfold flushState
  by_cases h : st.current = []
  · simp [h]
  · simp only [if_neg h, List.map_append, List.flatten_append, List.map_cons, List.map_nil]
    rw [words_strip, words_joinWords_map]
    simp

theorem stateWords_flush (st : PackState) : stateWords (flushState st) = stateWords st := by
  unfold stateWords
  rw [flush_chunks_words]
  simp [flushState]

theorem current_join_canonical {cur : List (List Char)}
    (h : ∀ s ∈ cur, words s ≠ [] ∧ s = joinWords (words s)) :
    joinWords cur = joinWords ((cur.map words).flatten) ∧
    strip (joinWords cur) = joinWords ((cur.map words).flatten) := by
  have hflat_iw : ∀ x ∈ (cur.map words).flatten, IsWord x := by
    intro x hx
    obtain ⟨l, hl, hxl⟩ := List.mem_flatten.mp hx
    obtain ⟨s, hs, rfl⟩ := List.mem_map.mp hl
    exact words_isWord hxl
  have hcur_eq : (cur.map words).map joinWords = cur := by
    rw [List.map_map]
    conv_rhs => rw [← List.map_id cur]
    apply List.map_congr_left
    intro s hs
    simp only [Function.comp_apply, id_eq]
    exact (h s hs).2.symm
  have hjoin : joinWords cur = joinWords ((cur.map words).flatten) := by
    conv_lhs => rw [← hcur_eq]
    exact joinWords_flatten _ (by
      intro g hg
      obtain ⟨s, hs, rfl⟩ := List.mem_map.mp hg
      exact (h s hs).1)
  refine ⟨hjoin, ?_⟩
  rw [hjoin]
  exact strip_joinWords hflat_iw

theorem flush_inv {mx : Nat} {st : PackState} (h : Inv mx st) : Inv mx (flushState st) := by
  obtain ⟨h1, h2, h3, h4⟩ := h
  unfold Inv flushState
  by_cases hcur : st.current = []
  · simp only [if_pos hcur]
    exact ⟨by simp, by omega, fun c hc => h3 c hc, by simp⟩
  · simp only [if_neg hcur]
    refine ⟨by simp, by omega, ?_, by simp⟩
    intro c hc
    rcases List.mem_append.mp hc with hc | hc
    · exact h3 c hc
    · rw [List.mem_singleton] at hc
      subst hc
      have hwords : words (strip (joinWords st.current)) = (st.current.map words).flatten := by
        rw [words_strip, words_joinWords_map]
      refine ⟨?_, ?_, ?_⟩
      · rw [hwords]
        intro hnil
        rw [List.flatten_eq_nil_iff] at hnil
        cases hcc : st.current with
        | nil => exact hcur hcc
        | cons s0 rest =>
          have hs0 : words s0 = [] := by
            apply hnil
            rw [hcc]
            simp
          exact (h4 s0 (by rw [hcc]; simp)).1 hs0
      · rw [hwords, ← h1]; exact h2
      · rw [hwords]
        exact (current_join_canonical h4).2

theorem stepSentence_stateWords (mn mx : Nat) (hmx : 1 ≤ mx) (st : PackState) (s : List Char) :
    stateWords (stepSentence mn mx st s) = stateWords st ++ words s := by
  have hIW : ∀ w ∈ words s, IsWord w := fun w hw => words_isWord hw
  have hparts : ((oversizedParts mx (words s)).map words).flatten = words s := by
    rw [oversizedParts_words hmx hIW, windows_flatten mx hmx]
  simp only [stepSentence]
  by_cases hov : mx < (words s).length
  · rw [if_pos hov]
    by_cases hcur : st.current = []
    · rw [if_pos hcur]
      unfold stateWords
      simp only [List.map_append, List.flatten_append]
      rw [hparts, hcur]
      simp [stateWords, hcur]
    · rw [if_neg hcur]
      unfold stateWords
      simp only [List.map_append, List.flatten_append]
      rw [hparts, flush_chunks_words]
      simp [flushState, stateWords]
  · rw [if_neg hov]
    by_cases hfl : mx < st.wordCount + (words s).length
    · rw [if_pos hfl, ite_self]
      unfold stateWords
      rw [flush_chunks_words]
      simp [flushState, List.append_assoc]
    · rw [if_neg hfl]
      unfold stateWords
      simp [List.append_assoc]

theorem stepSentence_inv {mn mx : Nat} (hmx : 1 ≤ mx) {st : PackState} {s : List Char}
    (hinv : Inv mx st) (hs : words s ≠ [] ∧ s = joinWords (words s)) :
    Inv mx (stepSentence mn mx st s) := by
  obtain ⟨h1, h2, h3, h4⟩ := hinv
  have hIW : ∀ w ∈ words s, IsWord w := fun w hw => words_isWord hw
  simp only [stepSentence]
  by_cases hov : mx < (words s).length
  · rw [if_pos hov]
    have hpw : ∀ p ∈ oversizedParts mx (words s),
        words p ≠ [] ∧ (words p).length ≤ mx ∧ p = joinWords (words p) := by
      intro p hp
      rw [oversizedParts_eq hmx hIW] at hp
      obtain ⟨win, hm, rfl⟩ := List.mem_map.mp hp
      have hsz := windows_mem_size mx hmx (words s).length (words s) win (le_refl _) hm
      have hwiw : ∀ x ∈ win, IsWord x := fun x hx => hIW x (windows_mem_words mx hmx hm x hx)
      have hww : words (joinWords win) = win := words_joinWords win hwiw
      rw [hww]
      exact ⟨hsz.1, hsz.2, rfl⟩
    by_cases hcur : st.current = []
    · rw [if_pos hcur]
      refine ⟨h1, h2, ?_, h4⟩
      intro c hc
      rcases List.mem_append.mp hc with hc | hc
      · exact h3 c hc
      · exact hpw c hc
    · rw [if_neg hcur]
      obtain ⟨f1, f2, f3, f4⟩ := flush_inv ⟨h1, h2, h3, h4⟩
      refine ⟨f1, f2, ?_, f4⟩
      intro c hc
      rcases List.mem_append.mp hc with hc | hc
      · exact f3 c hc
      · exact hpw c hc
  · rw [if_neg hov]
    have hle : (words s).length ≤ mx := by omega
    by_cases hfl : mx < st.wordCount + (words s).length
    · rw [if_pos hfl, ite_self]
      obtain ⟨f1, f2, f3, f4⟩ := flush_inv ⟨h1, h2, h3, h4⟩
      refine ⟨?_, ?_, f3, ?_⟩
      · show (flushState st).wordCount + (words s).length = _
        simp [flushState]
      · show (flushState st).wordCount + (words s).length ≤ mx
        simp only [flushState]
        omega
      · intro x hx
        show words x ≠ [] ∧ x = joinWords (words x)
        have hx2 : x ∈ [s] := by
          simpa [flushState] using hx
        rw [List.mem_singleton] at hx2
        subst hx2
        exact hs
    · rw [if_neg hfl]
      refine ⟨?_, ?_, h3, ?_⟩
      · show st.wordCount + (words s).length = _
        simp [h1, List.flatten_append]
      · show st.wordCount + (words s).length ≤ mx
        omega
      · intro x hx
        rcases List.mem_append.mp hx with hx | hx
        · exact h4 x hx
        · rw [List.mem_singleton] at hx
          subst hx
          exact hs

theorem foldl_inv (mn mx : Nat) (hmx : 1 ≤ mx) :
    ∀ (sents : List (List Char)) (st : PackState),
      (∀ s ∈ sents, words s ≠ [] ∧ s = joinWords (words s)) → Inv mx st →
      Inv mx (sents.foldl (stepSentence mn mx) st)
  | [], _, _, hinv => hinv
  | s :: rest, st, hsent, hinv => by
    rw [List.foldl_cons]
    exact foldl_inv mn mx hmx rest _ (fun x hx => hsent x (List.mem_cons_of_mem _ hx))
      (stepSentence_inv hmx hinv (hsent s (by simp)))

theorem foldl_stateWords (mn mx : Nat) (hmx : 1 ≤ mx) :
    ∀ (sents : List (List Char)) (st : PackState),
      stateWords (sents.foldl (stepSentence mn mx) st)
        = stateWords st ++ (sents.map words).flatten
  | [], st => by simp
  | s :: rest, st => by
    rw [List.foldl_cons, foldl_stateWords mn mx hmx rest _]
    rw [stepSentence_stateWords mn mx hmx st s]
    simp [List.append_assoc]

theorem init_inv (mx : Nat) : Inv mx ⟨[], [], 0⟩ := by
  refine ⟨by simp, Nat.zero_le mx, by simp, by simp⟩

theorem chunk_text_chunks_inv (t : List Char) (mn mx : Nat) (hmx : 1 ≤ mx) :
    ∀ c ∈ chunk_text t mn mx,
      words c ≠ [] ∧ (words c).length ≤ mx ∧ c = joinWords (words c) := by
  intro c hc
  simp only [chunk_text] at hc
  have hinv := foldl_inv mn mx hmx (split_sentences t) ⟨[], [], 0⟩
    (split_sentences_sentence_words t) (init_inv mx)
  have hfin := flush_inv hinv
  exact hfin.2.2.1 c hc

theorem chunk_text_words (t : List Char) (mn mx : Nat) (hmx : 1 ≤ mx) :
    ((chunk_text t mn mx).map words).flatten = words t := by
  simp only [chunk_text]
  rw [flush_chunks_words]
  show stateWords ((split_sentences t).foldl (stepSentence mn mx) ⟨[], [], 0⟩) = words t
  rw [foldl_stateWords mn mx hmx]
  rw [show stateWords ⟨[], [], 0⟩ = [] from rfl]
  rw [split_sentences_words_flatten]
  simp

theorem foldl_absorb (mn mx : Nat) :
    ∀ (sents : List (List Char)) (st : PackState),
      st.wordCount + ((sents.map words).flatten).length ≤ mx →
      sents.foldl (stepSentence mn mx) st
        = ⟨st.chunks, st.current ++ sents, st.wordCount + ((sents.map words).flatten).length⟩
  | [], st, _ => by simp
  | s :: rest, st, h => by
    rw [List.foldl_cons]
    simp only [List.map_cons, List.flatten_cons, List.length_append] at h
    have hstep : stepSentence mn mx st s
        = ⟨st.chunks, st.current ++ [s], st.wordCount + (words s).length⟩ := by
      simp only [stepSentence]
      rw [if_neg (show ¬ mx < (words s).length by omega)]
      rw [if_neg (show ¬ mx < st.wordCount + (words s).length by omega)]
    rw [hstep]
    rw [foldl_absorb mn mx rest ⟨st.chunks, st.current ++ [s], st.wordCount + (words s).length⟩
      (show st.wordCount + (words s).length + ((rest.map words).flatten).length ≤ mx by omega)]
    simp only [List.map_cons, List.flatten_cons, List.length_append, PackState.mk.injEq]
    refine ⟨trivial, by simp, by omega⟩

theorem chunk_text_of_canonical (c : List Char) (mn mx : Nat)
    (hne : words c ≠ []) (hle : (words c).length ≤ mx) (hcan : c = joinWords (words c)) :
    chunk_text c mn mx = [c] := by
  simp only [chunk_text]
  have hflat : ((split_sentences c).map words).flatten = words c := split_sentences_words_flatten c
  have habs := foldl_absorb mn mx (split_sentences c) ⟨[], [], 0⟩ (by
    show 0 + (((split_sentences c).map words).flatten).length ≤ mx
    rw [hflat]
    omega)
  rw [habs]
  have hsent_ne : split_sentences c ≠ [] := by
    intro h0
    rw [h0] at hflat
    exact hne (by simpa using hflat.symm)
  have hjoin := current_join_canonical (split_sentences_sentence_words c)
  unfold flushState
  simp only [List.nil_append]
  rw [if_neg hsent_ne]
  have hstrip : strip (joinWords (split_sentences c)) = c := by
    rw [hjoin.2, hflat, ← hcan]
  rw [hstrip]

/-! ### Claim theorems -/

/-- C1: for every input text and valid configuration (`1 ≤ min_words ≤
max_words`), concatenating the whitespace-delimited words of all chunks
returned by `chunk_text`, in chunk order, yields exactly the word sequence of
the whitespace-normalized input text — no word is added, dropped, duplicated,
or reordered. -/
theorem C1_lossless_repacking (t : List Char) (mn mx : Nat)
    (h1 : 1 ≤ mn) (h2 : mn ≤ mx) :
    ((chunk_text t mn mx).map words).flatten = words (normalize t) := by
  rw [words_normalize]
  exact chunk_text_words t mn mx (le_trans h1 h2)

theorem C1_lossless_repacking_witness :
    1 ≤ 2 ∧ 2 ≤ 3 ∧
      ((chunk_text ("Hi there. Go now! Ok?".toList) 2 3).map words).flatten
        = words (normalize ("Hi there. Go now! Ok?".toList)) :=
  ⟨by decide, by decide,
    C1_lossless_repacking ("Hi there. Go now! Ok?".toList) 2 3 (by decide) (by decide)⟩

/-- C2: for every input text and valid configuration, every chunk returned by
`chunk_text` has word count at most `max_words`; and every window emitted by
the oversized-sentence path, except possibly the last, has word count exactly
`max_words`. -/
theorem C2_bound_respected (t : List Char) (mn mx : Nat)
    (h1 : 1 ≤ mn) (h2 : mn ≤ mx) :
    (∀ c ∈ chunk_text t mn mx, (words c).length ≤ mx) ∧
    (∀ s : List Char, mx < (words s).length →
      ∀ p ∈ (oversizedParts mx (words s)).dropLast, (words p).length = mx) := by
  have hmx : 1 ≤ mx := le_trans h1 h2
  constructor
  · intro c hc
    exact (chunk_text_chunks_inv t mn mx hmx c hc).2.1
  · intro s hov p hp
    have hIW : ∀ w ∈ words s, IsWord w := fun w hw => words_isWord hw
    have hwne : words s ≠ [] := by
      intro h0; rw [h0] at hov; simp at hov
    have hsz := windows_sizes mx hmx hwne
    have hmap := oversizedParts_words hmx hIW
    have hlen : (oversizedParts mx (words s)).map (fun p => (words p).length)
        = (windows mx (words s)).map List.length := by
      rw [← hmap, List.map_map]
      rfl
    have hmem : (words p).length ∈ ((oversizedParts mx (words s)).map
        (fun p => (words p).length)).dropLast := by
      rw [← List.map_dropLast]
      exact List.mem_map_of_mem _ hp
    rw [hlen, hsz, List.dropLast_concat] at hmem
    exact List.eq_of_mem_replicate hmem

theorem C2_bound_respected_witness :
    1 ≤ 1 ∧ 1 ≤ 2 ∧ ("a b.".toList ∈ chunk_text ("a b. c.".toList) 1 2) ∧
      (words ("a b.".toList)).length ≤ 2 ∧
      2 < (words ("p q r s t".toList)).length ∧
      ("p q".toList ∈ (oversizedParts 2 (words ("p q r s t".toList))).dropLast) ∧
      (words ("p q".toList)).length = 2 :=
  ⟨by decide, by decide, by decide,
    (C2_bound_respected ("a b. c.".toList) 1 2 (by decide) (by decide)).1
      ("a b.".toList) (by decide),
    by decide, by decide,
    (C2_bound_respected ("a b. c.".toList) 1 2 (by decide) (by decide)).2
      ("p q r s t".toList) (by decide) ("p q".toList) (by decide)⟩

/-- C3: a sentence whose word count `w` exceeds `max_words ≥ 1` yields exactly
`ceil(w / max_words)` consecutive windows covering its words in order, each of
size `max_words` except the last, whose size is `w mod max_words` — or
`max_words` when `w` is an exact multiple (no empty trailing window). -/
theorem C3_oversized_window_sizing (s : List Char) (mx : Nat)
    (hmx : 1 ≤ mx) (hov : mx < (words s).length) :
    (oversizedParts mx (words s)).length = ((words s).length + mx - 1) / mx ∧
    (oversizedParts mx (words s)).map (fun p => (words p).length)
      = List.replicate ((((words s).length + mx - 1) / mx) - 1) mx
          ++ [if (words s).length % mx = 0 then mx else (words s).length % mx] ∧
    ((oversizedParts mx (words s)).map words).flatten = words s := by
  have hIW : ∀ w ∈ words s, IsWord w := fun w hw => words_isWord hw
  have hwne : words s ≠ [] := by
    intro h0; rw [h0] at hov; simp at hov
  have hmap := oversizedParts_words hmx hIW
  have hwl := windows_length mx hmx hwne
  have hlen : (oversizedParts mx (words s)).length = (windows mx (words s)).length := by
    rw [← hmap, List.length_map]
  refine ⟨by rw [hlen, hwl], ?_, ?_⟩
  · have hsz := windows_sizes mx hmx hwne
    rw [show (oversizedParts mx (words s)).map (fun p => (words p).length)
        = (windows mx (words s)).map List.length by rw [← hmap, List.map_map]; rfl]
    rw [hsz, hwl]
  · rw [hmap, windows_flatten mx hmx]

theorem C3_oversized_window_sizing_witness :
    1 ≤ 2 ∧ 2 < (words ("p q r s t".toList)).length ∧
      (oversizedParts 2 (words ("p q r s t".toList))).length = 3 ∧
      (oversizedParts 2 (words ("p q r s t".toList))).map (fun p => (words p).length)
        = [2, 2, 1] ∧
      ((oversizedParts 2 (words ("p q r s t".toList))).map words).flatten
        = words ("p q r s t".toList) :=
  ⟨by decide, by decide,
    ((C3_oversized_window_sizing ("p q r s t".toList) 2 (by decide) (by decide)).1).trans
      (by decide),
    ((C3_oversized_window_sizing ("p q r s t".toList) 2 (by decide) (by decide)).2.1).trans
      (by decide),
    (C3_oversized_window_sizing ("p q r s t".toList) 2 (by decide) (by decide)).2.2⟩

/-- C4: `min_words` never affects the result: for any two in-range values of
`min_words`, `chunk_text` returns identical chunk sequences — the flush on
overflow happens whether or not the running count has reached `min_words`. -/
theorem C4_min_words_inert (t : List Char) (mx a b : Nat)
    (ha1 : 1 ≤ a) (ha2 : a ≤ mx) (hb1 : 1 ≤ b) (hb2 : b ≤ mx) :
    chunk_text t a mx = chunk_text t b mx := by
  have hstep : stepSentence a mx = stepSentence b mx := by
    funext st s
    simp only [stepSentence, ite_self]
  simp only [chunk_text, hstep]

theorem C4_min_words_inert_witness :
    1 ≤ 1 ∧ 1 ≤ 3 ∧ 1 ≤ 3 ∧ 3 ≤ 3 ∧
      chunk_text ("a b. c d. e.".toList) 1 3 = chunk_text ("a b. c d. e.".toList) 3 3 :=
  ⟨by decide, by decide, by decide, by decide,
    C4_min_words_inert ("a b. c d. e.".toList) 3 1 3 (by decide) (by decide)
      (by decide) (by decide)⟩

/-- C5: the sentence splitter first collapses every whitespace run to a single
space and trims the ends, then splits exactly after each `.`, `!` or `?` that
is followed by whitespace; the punctuation stays attached to the preceding
sentence, the separating whitespace is discarded, and the final sentence is
emitted even without trailing punctuation (stated as equality with the
spec-side splitter `splitSentencesSpec`). -/
theorem C5_sentence_splitter (t : List Char) :
    split_sentences t = splitSentencesSpec t :=
  split_sentences_eq_spec t

/-- C6: the overflow test of the packer is strictly greater-than: whenever
`current_count + w ≤ max_words` (in particular at an exact fill
`current_count + w = max_words`), the sentence is appended to the current
accumulator and no flush happens; a flush before the sentence happens only
when `current_count + w > max_words`. -/
theorem C6_exact_fill (mn mx : Nat) (st : PackState) (s : List Char)
    (hfit : st.wordCount + (words s).length ≤ mx) :
    stepSentence mn mx st s
      = ⟨st.chunks, st.current ++ [s], st.wordCount + (words s).length⟩ := by
  simp only [stepSentence]
  rw [if_neg (show ¬ mx < (words s).length by omega)]
  rw [if_neg (show ¬ mx < st.wordCount + (words s).length by omega)]

theorem C6_exact_fill_witness :
    (1 : Nat) + (words ("b c.".toList)).length ≤ 3 ∧
      stepSentence 1 3 ⟨[], ["a.".toList], 1⟩ ("b c.".toList)
        = ⟨[], ["a.".toList, "b c.".toList], 3⟩ :=
  ⟨by decide,
    (C6_exact_fill 1 3 ⟨[], ["a.".toList], 1⟩ ("b c.".toList) (by decide)).trans (by decide)⟩

/-- C7: totality and well-formedness: `split_sentences` and `chunk_text` are
total functions in this embedding, and under a valid configuration every chunk
returned by `chunk_text` is well-formed — non-empty and whitespace-trimmed
(`strip` leaves it unchanged). -/
theorem C7_total_wellformed (t : List Char) (mn mx : Nat)
    (h1 : 1 ≤ mn) (h2 : mn ≤ mx) :
    ∀ c ∈ chunk_text t mn mx, c ≠ [] ∧ strip c = c := by
  intro c hc
  have hmx := le_trans h1 h2
  obtain ⟨hne, hle, hcan⟩ := chunk_text_chunks_inv t mn mx hmx c hc
  have hIW : ∀ w ∈ words c, IsWord w := fun w hw => words_isWord hw
  constructor
  · intro h0
    apply hne
    rw [h0]
    rfl
  · calc strip c = strip (joinWords (words c)) := by rw [← hcan]
      _ = joinWords (words c) := strip_joinWords hIW
      _ = c := hcan.symm

theorem C7_total_wellformed_witness :
    1 ≤ 1 ∧ 1 ≤ 2 ∧ ("a b.".toList ∈ chunk_text ("a b. c.".toList) 1 2) ∧
      ("a b.".toList ≠ [] ∧ strip ("a b.".toList) = "a b.".toList) :=
  ⟨by decide, by decide, by decide,
    C7_total_wellformed ("a b. c.".toList) 1 2 (by decide) (by decide)
      ("a b.".toList) (by decide)⟩

/-- C8: chunks produced from an oversized sentence never merge with material
from neighboring sentences: a non-empty accumulator is flushed as its own
chunk before the windows are emitted, the windows cover exactly the oversized
sentence's words, and the next sentence starts from an empty accumulator. -/
theorem C8_no_merge (mn mx : Nat) (st : PackState) (s : List Char)
    (hmx : 1 ≤ mx) (hov : mx < (words s).length) :
    stepSentence mn mx st s
      = ⟨(flushState st).chunks ++ oversizedParts mx (words s), [],
          if st.current = [] then st.wordCount else 0⟩ ∧
    ((oversizedParts mx (words s)).map words).flatten = words s := by
  have hIW : ∀ w ∈ words s, IsWord w := fun w hw => words_isWord hw
  constructor
  · simp only [stepSentence]
    rw [if_pos hov]
    by_cases hcur : st.current = []
    · rw [if_pos hcur]
      simp [flushState, hcur]
    · rw [if_neg hcur]
      simp [flushState, hcur]
  · rw [oversizedParts_words hmx hIW, windows_flatten mx hmx]

theorem C8_no_merge_witness :
    1 ≤ 2 ∧ 2 < (words ("p q r".toList)).length ∧
      stepSentence 5 2 ⟨[], ["x.".toList], 1⟩ ("p q r".toList)
        = ⟨["x.".toList, "p q".toList, "r".toList], [], 0⟩ ∧
      ((oversizedParts 2 (words ("p q r".toList))).map words).flatten
        = words ("p q r".toList) :=
  ⟨by decide, by decide,
    ((C8_no_merge 5 2 ⟨[], ["x.".toList], 1⟩ ("p q r".toList)
      (by decide) (by decide)).1).trans (by decide),
    (C8_no_merge 5 2 ⟨[], ["x.".toList], 1⟩ ("p q r".toList)
      (by decide) (by decide)).2⟩

/-- C9: for every input whose whitespace-normalized form is empty (including
the empty string and whitespace-only strings) and every valid configuration,
`chunk_text` returns the empty chunk sequence. -/
theorem C9_empty_input (t : List Char) (mn mx : Nat)
    (h1 : 1 ≤ mn) (h2 : mn ≤ mx) (hemp : normalize t = []) :
    chunk_text t mn mx = [] := by
  have hsent : split_sentences t = [] := by
    unfold split_sentences
    rw [hemp]
    simp
  simp only [chunk_text, hsent, List.foldl_nil]
  simp [flushState]

theorem C9_empty_input_witness :
    1 ≤ 1 ∧ 1 ≤ 2 ∧ normalize (" \t \n ".toList) = [] ∧
      chunk_text (" \t \n ".toList) 1 2 = [] :=
  ⟨by decide, by decide, by decide,
    C9_empty_input (" \t \n ".toList) 1 2 (by decide) (by decide) (by decide)⟩

/-- C10: re-chunking a produced chunk is the identity: every chunk `c` in the
output of `chunk_text` under a valid configuration satisfies
`chunk_text c min_words max_words = [c]`. -/
theorem C10_rechunk_identity (t : List Char) (mn mx : Nat)
    (h1 : 1 ≤ mn) (h2 : mn ≤ mx) :
    ∀ c ∈ chunk_text t mn mx, chunk_text c mn mx = [c] := by
  intro c hc
  have hmx := le_trans h1 h2
  obtain ⟨hne, hle, hcan⟩ := chunk_text_chunks_inv t mn mx hmx c hc
  exact chunk_text_of_canonical c mn mx hne hle hcan

theorem C10_rechunk_identity_witness :
    1 ≤ 1 ∧ 1 ≤ 2 ∧ ("a b.".toList ∈ chunk_text ("a b. c.".toList) 1 2) ∧
      chunk_text ("a b.".toList) 1 2 = ["a b.".toList] :=
  ⟨by decide, by decide, by decide,
    C10_rechunk_identity ("a b. c.".toList) 1 2 (by decide) (by decide)
      ("a b.".toList) (by decide)⟩

end ChunkText
